import Mathlib

set_option maxRecDepth 4096

/-!
Verification of the linkslogic-frontend voice-capture / question-submission
pipeline, the request gate, the rules API client and the answer renderer.

Strings are modelled as `List Char` (`Str`), with the JavaScript string
operations used by the code (`trim`, `startsWith`, `split`, `replace`,
first-occurrence and global replacement) defined explicitly below.
-/

abbrev Str := List Char

/-- JavaScript whitespace (the characters relevant to this code base). -/
def ws (c : Char) : Bool := c = ' ' || c = '\t' || c = '\n' || c = '\r'

/-- Remove trailing whitespace (the tail half of JavaScript `trim()`). -/
def trimEnd (l : Str) : Str := (l.reverse.dropWhile ws).reverse

/-- JavaScript `String.prototype.trim()` on `List Char`. -/
def trimL (l : Str) : Str := trimEnd (l.dropWhile ws)

/-- A string is `NT` when it is non-empty and carries no leading or
trailing whitespace (trimming is the identity on it). -/
def NT (l : Str) : Prop := l ≠ [] ∧ trimL l = l

/-- Boolean prefix test (JavaScript `startsWith`). -/
def pfx : Str → Str → Bool
  | [], _ => true
  | _ :: _, [] => false
  | a :: as, b :: bs => a = b && pfx as bs

/-- Boolean substring test: `p` occurs somewhere in the string. -/
def hasSeg (p : Str) : Str → Bool
  | [] => p.isEmpty
  | c :: cs => pfx p (c :: cs) || hasSeg p cs

/-- Join a list of strings with a separator (JavaScript `Array.join`). -/
def icalate (sep : Str) : List Str → Str
  | [] => []
  | [x] => x
  | x :: y :: ys => x ++ sep ++ icalate sep (y :: ys)

/-- The shape of the `accumulatedTranscript` variable: every finalized
segment is followed by one `' '` (the code appends `final + ' '`). -/
def joinSp : List Str → Str
  | [] => []
  | f :: fs => f ++ [' '] ++ joinSp fs

/-- Fuel-driven worker for global first-to-last replacement. -/
def replaceAllGo (p r : Str) : Nat → Str → Str
  | _, [] => []
  | 0, s => s
  | fuel + 1, c :: cs =>
      if pfx p (c :: cs) && !p.isEmpty then
        r ++ replaceAllGo p r fuel (List.drop p.length (c :: cs))
      else
        c :: replaceAllGo p r fuel cs

/-- JavaScript `String.replace` with a global (`/g`) string pattern:
replace every non-overlapping occurrence, scanning left to right, without
rescanning replacement text. -/
def replaceAll (p r s : Str) : Str := replaceAllGo p r s.length s

/-- JavaScript `String.replace` with a plain string pattern: replace the
first occurrence only. -/
def replaceFirst (p r : Str) : Str → Str
  | [] => []
  | c :: cs =>
      if pfx p (c :: cs) && !p.isEmpty then
        r ++ List.drop p.length (c :: cs)
      else
        c :: replaceFirst p r cs

/-- JavaScript `String.split('\n')` on `List Char`. -/
def splitNl : Str → List Str
  | [] => [[]]
  | c :: cs =>
      match splitNl cs with
      | [] => [[]]
      | h :: t => if c = '\n' then [] :: h :: t else (c :: h) :: t

/-! ## Facts about trimming and joining -/

/-- The first character exists and is not whitespace. -/
def HeadOK (l : Str) : Prop := ∃ c t, l = c :: t ∧ ws c = false

/-- The last character exists and is not whitespace. -/
def LastOK (l : Str) : Prop := ∃ t c, l = t ++ [c] ∧ ws c = false

/-- Empty, or non-empty with no surrounding whitespace. -/
def NTor0 (l : Str) : Prop := l = [] ∨ NT l

/-! ## The voice capture pipeline

Shallow embedding of `useVoiceRecognition` plus the `VoiceInput`
submission effect of `src/App.tsx` (lines 44-149 and 236-255; `part_000`
and `part_001` share the same structure).  React state (`isListening`,
`transcript`, `hasSubmitted`, `error`) and the closure variables
(`accumulatedTranscript`, `submitTimeout`) are one record; the
`submitTimeout` handle is the absolute deadline in milliseconds of the
single pending `setTimeout`.  Each external event is processed as one
callback followed by the re-render that runs the `VoiceInput`
`useEffect` (`checkEffect`).  `submissions` logs each `onTranscript`
call. -/

structure VState where
  isListening : Bool
  transcript : Str
  hasSubmitted : Bool
  accumulated : Str
  timer : Option Nat
  error : Option Str
  submissions : List Str
deriving DecidableEq

/-- External events driving one voice component: the user clicking the
mic (`handleStartListening`), the user clicking stop (`stopListening`),
a platform `onresult` event carrying `(isFinal, text)` segments, and a
platform `onerror` event. -/
inductive VEvent
  | start
  | stop
  | result (segs : List (Bool × Str))
  | error (msg : Str)
deriving DecidableEq

/-- The `VoiceInput` `useEffect` of `src/App.tsx` lines 242-248: when a
non-empty transcript is present, listening has stopped and nothing was
submitted yet, mark submitted and call `onTranscript(transcript)`. -/
def checkEffect (s : VState) : VState :=
  if s.transcript ≠ [] ∧ s.isListening = false ∧ s.hasSubmitted = false then
    { s with hasSubmitted := true, submissions := s.submissions ++ [s.transcript] }
  else s

/-- Concatenation of the texts of the final segments of one `onresult`
event (`finalTranscript` after the loop of lines 77-85). -/
def finOf (segs : List (Bool × Str)) : Str :=
  (segs.filterMap fun p => if p.1 then some p.2 else none).flatten

/-- Concatenation of the texts of the interim segments of one
`onresult` event (`interimTranscript` after the loop). -/
def intOf (segs : List (Bool × Str)) : Str :=
  (segs.filterMap fun p => if p.1 then none else some p.2).flatten

/-- `accumulatedTranscript` after one `onresult` event: the code runs
`if (finalTranscript) accumulatedTranscript += finalTranscript + ' '`
(line 88-90); an empty `finalTranscript` is falsy. -/
def accOf (s : VState) (segs : List (Bool × Str)) : Str :=
  if finOf segs = [] then s.accumulated
  else s.accumulated ++ finOf segs ++ [' ']

/-- The body of `recognition.onresult` (`src/App.tsx` lines 73-109):
update the accumulated text, and when the combined
accumulated-plus-interim text is non-blank, publish its trim as the
transcript, clear any pending quiet-period timeout and arm a fresh
5000 ms one.  The timeout callback itself is `fireTimer` below. -/
def resultStep (t : Nat) (s : VState) (segs : List (Bool × Str)) : VState :=
  if trimL (accOf s segs ++ intOf segs) ≠ [] then
    { s with accumulated := accOf s segs,
             transcript := trimL (accOf s segs ++ intOf segs),
             timer := some (t + 5000) }
  else
    { s with accumulated := accOf s segs }

/-- One callback, before the effect runs:
`handleStartListening`/`startListening` (lines 123-133, 251-255),
`stopListening` followed by the platform `onend` (lines 135-139, 111-113),
`onresult`, and `onerror` (lines 115-119). -/
def rawApply (t : Nat) (s : VState) : VEvent → VState
  | .start =>
      if s.isListening then { s with hasSubmitted := false }
      else { s with hasSubmitted := false, transcript := [], error := none,
                    isListening := true }
  | .stop => if s.isListening then { s with isListening := false } else s
  | .result segs => resultStep t s segs
  | .error msg => { s with error := some msg, isListening := false }

/-- One external event: the callback, then the re-render effect. -/
def applyEvent (t : Nat) (s : VState) (e : VEvent) : VState :=
  checkEffect (rawApply t s e)

/-- The quiet-period timeout callback (`src/App.tsx` lines 103-107):
reset `accumulatedTranscript` and call `recognition.stop()`; if the
recognition was active this fires `onend` (`setIsListening(false)`),
whose re-render runs the submission effect. -/
def fireTimer (s : VState) : VState :=
  if s.isListening then
    checkEffect { s with timer := none, accumulated := [], isListening := false }
  else
    { s with timer := none, accumulated := [] }

/-- Fire a pending quiet-period timeout whose deadline has passed. -/
def maybeFire (s : VState) (t : Nat) : VState :=
  match s.timer with
  | some d => if d ≤ t then fireTimer s else s
  | none => s

/-- Process one timed event: a pending timeout due before it fires
first, then the event itself is handled. -/
def stepTimed (s : VState) (p : Nat × VEvent) : VState :=
  applyEvent p.1 (maybeFire s p.1) p.2

/-- After the last external event, a still-pending timeout fires iff its
deadline falls within the observation horizon. -/
def finalFire (s : VState) (horizon : Nat) : VState :=
  match s.timer with
  | some d => if d ≤ horizon then fireTimer s else s
  | none => s

/-- Run a timed event trace from a state, observing up to `horizon`. -/
def processTimed (s : VState) (evs : List (Nat × VEvent)) (horizon : Nat) : VState :=
  finalFire (List.foldl stepTimed s evs) horizon

/-- The freshly mounted component (all `useState` initializers and the
closure variables of the mount effect). -/
def vInit : VState := ⟨false, [], false, [], none, none, []⟩

/-- The C1 counterexample trace: start capture, one finalized segment
`"hello"` at 100 ms, explicit user stop at 200 ms — long before the
5-second quiet period (deadline 5100 ms) expires. -/
def c1run : VState :=
  processTimed vInit
    [(0, .start), (100, .result [(true, "hello".data)]), (200, .stop)] 200

/-- The error-ended C1 counterexample trace: same session, but capture
ends with a platform `onerror` at 200 ms instead of a user stop, again
before the quiet period (deadline 5100 ms) expires. -/
def c1runErr : VState :=
  processTimed vInit
    [(0, .start), (100, .result [(true, "hello".data)]),
     (200, .error "no-speech".data)] 200

/-- Mid-capture state used as the witness input for C1. -/
def c1wState : VState :=
  ⟨true, "hello".data, false, "hello ".data, some 5100, none, []⟩

/-- The C5 counterexample trace: a first session is stopped explicitly
(submitting `"hello"`), capture is restarted, and a second session says
`"world"`; the second session's quiet-period expiry submits
`"hello world"`, because restarting did not reset
`accumulatedTranscript`. -/
def c5run : VState :=
  processTimed vInit
    [(0, .start), (100, .result [(true, "hello".data)]), (200, .stop),
     (300, .start), (400, .result [(true, "world".data)])] 5400

/-! ## One voice session: start followed by recognition events -/

/-- A timed recognition event: arrival time in milliseconds and the
`(isFinal, text)` segments it carries. -/
abbrev REvent := Nat × List (Bool × Str)

/-- Well-formed recognition event: it carries at least one segment and
every segment text is non-empty with no surrounding whitespace. -/
def WFev (sg : List (Bool × Str)) : Prop := sg ≠ [] ∧ ∀ p ∈ sg, NT p.2

def allWF (evs : List REvent) : Prop := ∀ e ∈ evs, WFev e.2

/-- Arrival times are strictly increasing and each event arrives within
5000 ms of its predecessor (so no quiet period elapses mid-session);
`prev` is the time of the preceding event, if any. -/
def timesOK : Option Nat → List REvent → Prop
  | _, [] => True
  | none, (t, _) :: rest => 0 < t ∧ timesOK (some t) rest
  | some p, (t, _) :: rest => p < t ∧ t < p + 5000 ∧ timesOK (some t) rest

def lastTime : List REvent → Nat
  | [] => 0
  | [(t, _)] => t
  | _ :: rest => lastTime rest

/-- The non-empty per-event finalized texts, in arrival order. -/
def finsAll : List REvent → List Str
  | [] => []
  | (_, sg) :: rest => (if finOf sg = [] then [] else [finOf sg]) ++ finsAll rest

/-- The interim text of the last event (interim text replaces, never
accumulates). -/
def lastInter : List REvent → Str
  | [] => []
  | [(_, sg)] => intOf sg
  | _ :: rest => lastInter rest

def toVE (p : REvent) : Nat × VEvent := (p.1, VEvent.result p.2)

def voiceFold (s : VState) (evs : List REvent) : VState :=
  List.foldl stepTimed s (evs.map toVE)

/-- A full session: the user starts capture at time 0, the recognition
events follow, and the system is observed up to `horizon`. -/
def runSession (evs : List REvent) (horizon : Nat) : VState :=
  processTimed vInit ((0, VEvent.start) :: evs.map toVE) horizon

/-- Modelled from the spec: "the exposed transcript equals the
accumulation of finalized segments (space-joined, in arrival order)
concatenated with the latest interim text". -/
def specT (evs : List REvent) : Str :=
  icalate [' '] (finsAll evs ++ if lastInter evs = [] then [] else [lastInter evs])

instance (l : Str) : Decidable (NT l) :=
  decidable_of_iff (l ≠ [] ∧ trimL l = l) Iff.rfl

instance (sg : List (Bool × Str)) : Decidable (WFev sg) :=
  decidable_of_iff (sg ≠ [] ∧ ∀ p ∈ sg, NT p.2) Iff.rfl

instance (evs : List REvent) : Decidable (allWF evs) :=
  decidable_of_iff (∀ e ∈ evs, WFev e.2) Iff.rfl

instance instDecTimesOK : ∀ (p : Option Nat) (evs : List REvent),
    Decidable (timesOK p evs)
  | _, [] => isTrue (by simp [timesOK])
  | none, (t, _) :: rest =>
      haveI := instDecTimesOK (some t) rest
      decidable_of_iff (0 < t ∧ timesOK (some t) rest) Iff.rfl
  | some p, (t, _) :: rest =>
      haveI := instDecTimesOK (some t) rest
      decidable_of_iff (p < t ∧ t < p + 5000 ∧ timesOK (some t) rest) Iff.rfl

/-- Invariant characterizing the state after a start and one or more
well-formed recognition events. -/
def RunInv (s0 f : VState) (fins1 : List Str) (inter : Str) (tl : Nat) : Prop :=
  f.isListening = true ∧ f.hasSubmitted = false ∧
  f.submissions = s0.submissions ∧
  f.accumulated = joinSp fins1 ∧
  f.transcript = trimL (joinSp fins1 ++ inter) ∧
  f.transcript ≠ [] ∧
  f.timer = some (tl + 5000)

/-- The component state right after the user starts capture. -/
def vStarted : VState := ⟨true, [], false, [], none, none, []⟩

/-! ## The rules API hook

`Answer` is the parsed JSON body of `POST /api/ask` (fields the code
reads: `success`, `answer`, `error`).  `ApiState` is the state of the
API hook: `useGolfRulesAPI` in `src/App.tsx` and `useColumbiaRulesAPI`
in `part_001` (identical logic), and `useColumbiaRulesAPI` in
`part_000` (the `ca`-prefixed functions below).  `apiCalls` logs each
question for which a request actually reached `fetch(API_BASE_URL +
"/api/ask")`. -/

structure Answer where
  success : Bool
  answer : Str
  error : Option Str
deriving DecidableEq

structure ApiState where
  loading : Bool
  requestInProgress : Bool
  response : Option Answer
  error : Option Str
  apiCalls : List Str
deriving DecidableEq

/-- The guard condition of `askQuestion` in `src/App.tsx` (lines
176-181): `if (requestInProgress || loading) return`. -/
def blocked (s : ApiState) : Bool := s.requestInProgress || s.loading

/-- The synchronous part of `askQuestion` (`src/App.tsx` lines 176-203)
up to and including dispatching the fetch: reject when blocked,
otherwise mark in-flight, set loading, clear the error, and issue the
request. The prior `response` is not touched. -/
def askStart (s : ApiState) (q : Str) : ApiState :=
  if blocked s then s
  else { s with requestInProgress := true, loading := true, error := none,
                apiCalls := s.apiCalls ++ [q] }

/-- How the awaited fetch can come back: with a parsed JSON body, or
with an exception (`isAbort = true` for `AbortError`, i.e. the
10-second timer fired; `false` for a network-level failure). -/
inductive FetchResult
  | resolved (a : Answer)
  | rejected (isAbort : Bool)
deriving DecidableEq

def failMsg : Str := "Failed to get response".data

def timeoutMsg : Str := "Request timed out".data

def networkMsg : Str := "Network error. Please check your connection.".data

/-- The completion of `askQuestion` (`src/App.tsx` lines 206-224):
success stores the answer, a false success flag or an exception stores
an error message, and the `finally` block clears `loading` and
`requestInProgress` on every path. -/
def askFinish (s : ApiState) (r : FetchResult) : ApiState :=
  let s1 :=
    match r with
    | .resolved a =>
        if a.success then { s with response := some a, error := none }
        else { s with error := some (a.error.getD failMsg) }
    | .rejected true => { s with error := some timeoutMsg }
    | .rejected false => { s with error := some networkMsg }
  { s1 with loading := false, requestInProgress := false }

/-- Timing of one request against the `setTimeout(() =>
controller.abort(), 10000)` timer of `src/App.tsx` line 190: a response
arriving (in milliseconds) past the 10000 ms bound finds the controller
already aborted, so the await rejects with `AbortError`. -/
def fetchResult (arrival : Nat) (netFail : Bool) (a : Answer) : FetchResult :=
  if 10000 < arrival then .rejected true
  else if netFail then .rejected false
  else .resolved a

/-- One complete run of `askQuestion` (`src/App.tsx` lines 176-225):
either rejected by the gate (no effect), or started and finished. -/
def askQuestion (s : ApiState) (q : Str) (r : FetchResult) : ApiState :=
  if blocked s then s else askFinish (askStart s q) r

/-! The `part_000` variant of the hook (`useColumbiaRulesAPI`,
`part_000` lines 178-234): no `requestInProgress` guard, no
`AbortController`, but it does clear `response` at the start. -/

def caFailMsg : Str := "Failed to get rules information".data

def caNetworkMsg : Str := "Network error - please check your connection".data

/-- The synchronous part of `askQuestion` in `part_000` (lines
195-211): unconditionally set loading, clear error and response, and
issue the request — there is no in-flight guard. -/
def caAskStart (s : ApiState) (q : Str) : ApiState :=
  { s with loading := true, error := none, response := none,
           apiCalls := s.apiCalls ++ [q] }

/-- Timing of one `part_000` request: the hook creates no
`AbortController` and sets no timer (`part_000` lines 200-211), so the
arrival time can never trigger an abort; only a transport failure
rejects. -/
def caFetchResult (_arrival : Nat) (netFail : Bool) (a : Answer) : FetchResult :=
  if netFail then .rejected false else .resolved a

/-- The completion of `askQuestion` in `part_000` (lines 213-224). -/
def caAskFinish (s : ApiState) (r : FetchResult) : ApiState :=
  let s1 :=
    match r with
    | .resolved a =>
        if a.success then { s with response := some a }
        else { s with error := some (a.error.getD caFailMsg) }
    | .rejected _ => { s with error := some caNetworkMsg }
  { s1 with loading := false }

/-- One complete run of `askQuestion` in `part_000`. -/
def caAskQuestion (s : ApiState) (q : Str) (r : FetchResult) : ApiState :=
  caAskFinish (caAskStart s q) r

/-- The initial hook state (all `useState` initializers). -/
def apiInit : ApiState := ⟨false, false, none, none, []⟩

/-- A stored answer from an earlier request, used by the C8
counterexample. -/
def prevAnswer : Answer := ⟨true, "old answer".data, none⟩

/-- Hook state displaying `prevAnswer`, with no request in flight. -/
def c8state : ApiState := ⟨false, false, some prevAnswer, none, []⟩

/-- No occurrence of `p` can begin inside `x`, whatever follows. -/
def CleanSeg (p x : Str) : Prop :=
  ∀ i, i < x.length →
    pfx p (List.drop i x) = false ∧ pfx (List.drop i x) p = false

instance (p x : Str) : Decidable (CleanSeg p x) := by
  unfold CleanSeg
  infer_instance

/-! ## The answer renderers

`generalRender` is the GeneralApp answer formatting (`src/App.tsx`
lines 382-391): `answer.replace(/\n/g, '<br>').replace(/•/g, '&bull;')`.
`columbiaRender` is the Columbia answer formatting (`part_001` lines
425-438, `part_000` lines 307-320): split on newlines, wrap lines whose
trim starts with a bullet marker in a flex `div` item, join with
`<br>`, then globally delete the `<br>` between a closing item `div`
and the next flex item `div`.  Both are inserted with
`dangerouslySetInnerHTML`, i.e. as raw HTML. -/

def brStr : Str := "<br>".data

def patF : Str := "<div style=\"display: flex".data

def segE : Str := "</div>".data

def segS : Str := "</span>".data

def pat : Str := "</div><br><div style=\"display: flex".data

def rep : Str := "</div><div style=\"display: flex".data

def bulletMark : Str := "• ".data

def dOpen : Str := "<div style=\"display: flex; margin-bottom: 2px; padding-left: 0;\"><span style=\"margin-right: 8px;\">&bull;</span><span>".data

def dOpen2 : Str := "; margin-bottom: 2px; padding-left: 0;\"><span style=\"margin-right: 8px;\">&bull;</span><span>".data

def dClose : Str := "</span></div>".data

/-- `line.trim().startsWith('• ')`. -/
def isBullet (l : Str) : Bool := pfx bulletMark (trimL l)

/-- The per-line map of the Columbia renderer. -/
def renderLine (l : Str) : Str :=
  if isBullet l then dOpen ++ replaceFirst bulletMark [] l ++ dClose else l

/-- `…split('\n').map(line => …).join('<br>')`. -/
def renderAll (lines : List Str) : Str := icalate brStr (lines.map renderLine)

/-- The full Columbia answer formatting pipeline. -/
def columbiaRender (a : Str) : Str := replaceAll pat rep (renderAll (splitNl a))

/-- The full GeneralApp answer formatting pipeline. -/
def generalRender (a : Str) : Str :=
  replaceAll ['•'] "&bull;".data (replaceAll ['\n'] brStr a)

/-- Modelled from the spec: lines are rendered individually; adjacent
bullet lines are joined without an intervening line break, and a line
break separates every other adjacent pair. -/
def specJoinLines : List Str → Str
  | [] => []
  | [l] => renderLine l
  | l1 :: l2 :: rest =>
      renderLine l1 ++ (if isBullet l1 && isBullet l2 then [] else brStr)
        ++ specJoinLines (l2 :: rest)

/-- Modelled from the spec: the declarative rendering of an answer. -/
def specRender (a : Str) : Str := specJoinLines (splitNl a)

/-- What follows one rendered line in the declarative rendering, given
whether that line was a bullet line. -/
def restSpec (bPrev : Bool) : List Str → Str
  | [] => []
  | l :: ls => (if bPrev && isBullet l then [] else brStr) ++ specJoinLines (l :: ls)

/-- What follows one rendered line in the code's pre-replacement join. -/
def restRender : List Str → Str
  | [] => []
  | l :: ls => brStr ++ renderAll (l :: ls)

/-- A rendered bullet item with its leading flex-head `patF` removed. -/
def bTail (u : Str) : Str := dOpen2 ++ u ++ dClose

/-- The round-trip example answer of the specification. -/
def exAnswer : Str := "line one\n• item a\n• item b\nline two".data

/-! ## Lemmas and claim theorems -/

lemma dropWhile_id_of_headOK {l : Str} (h : HeadOK l) : l.dropWhile ws = l := by
  obtain ⟨c, t, rfl, hc⟩ := h
  simp [List.dropWhile, hc]

lemma trimEnd_snoc_ws (y : Str) (c : Char) (h : ws c = true) :
    trimEnd (y ++ [c]) = trimEnd y := by
  simp [trimEnd, List.reverse_append, List.dropWhile, h]

lemma trimEnd_id_of_lastOK {l : Str} (h : LastOK l) : trimEnd l = l := by
  obtain ⟨t, c, rfl, hc⟩ := h
  simp [trimEnd, List.reverse_append, List.dropWhile, hc]

lemma trim_id_of {l : Str} (h1 : HeadOK l) (h2 : LastOK l) : trimL l = l := by
  rw [trimL, dropWhile_id_of_headOK h1, trimEnd_id_of_lastOK h2]

lemma headOK_append {a : Str} (h : HeadOK a) (y : Str) : HeadOK (a ++ y) := by
  obtain ⟨c, t, rfl, hc⟩ := h
  exact ⟨c, t ++ y, by simp, hc⟩

lemma lastOK_append (x : Str) {b : Str} (h : LastOK b) : LastOK (x ++ b) := by
  obtain ⟨t, c, rfl, hc⟩ := h
  exact ⟨x ++ t, c, by simp, hc⟩

lemma dw_length_le (p : Char → Bool) : ∀ l : Str, (l.dropWhile p).length ≤ l.length := by
  intro l
  induction l with
  | nil => simp
  | cons a t ih =>
      by_cases h : p a = true
      · have : (a :: t).dropWhile p = t.dropWhile p := by simp [List.dropWhile, h]
        rw [this]
        exact le_trans ih (by simp)
      · have hb : p a = false := by simpa using h
        have : (a :: t).dropWhile p = a :: t := by simp [List.dropWhile, hb]
        rw [this]

lemma trim_length_le (l : Str) : (trimL l).length ≤ l.length := by
  have h1 : (trimEnd (l.dropWhile ws)).length ≤ (l.dropWhile ws).length := by
    simp only [trimEnd, List.length_reverse]
    exact le_trans (dw_length_le _ _) (by simp)
  exact le_trans h1 (dw_length_le _ _)

lemma NT_headOK {l : Str} (h : NT l) : HeadOK l := by
  obtain ⟨hne, htr⟩ := h
  cases l with
  | nil => exact absurd rfl hne
  | cons c t =>
      by_cases hc : ws c = true
      · exfalso
        have hdrop : (c :: t).dropWhile ws = t.dropWhile ws := by
          simp [List.dropWhile, hc]
        have : trimL (c :: t) = trimL t := by rw [trimL, hdrop]; rfl
        have hlen : (trimL (c :: t)).length ≤ t.length := by
          rw [this]; exact trim_length_le t
        rw [htr] at hlen
        simp only [List.length_cons] at hlen
        omega
      · exact ⟨c, t, rfl, by simpa using hc⟩

lemma NT_lastOK {l : Str} (h : NT l) : LastOK l := by
  have hdw : l.dropWhile ws = l := dropWhile_id_of_headOK (NT_headOK h)
  obtain ⟨hne, htr⟩ := h
  have hte : trimEnd l = l := by rw [trimL, hdw] at htr; exact htr
  have hrev : l.reverse.dropWhile ws = l.reverse := by
    have := congrArg List.reverse hte
    simpa [trimEnd] using this
  cases hr : l.reverse with
  | nil => exact absurd (by simpa using congrArg List.reverse hr) hne
  | cons c t =>
      by_cases hc : ws c = true
      · exfalso
        rw [hr] at hrev
        have : (c :: t).dropWhile ws = t.dropWhile ws := by
          simp [List.dropWhile, hc]
        rw [this] at hrev
        have := congrArg List.length hrev
        have hle := dw_length_le ws t
        simp only [List.length_cons] at this
        omega
      · refine ⟨t.reverse, c, ?_, by simpa using hc⟩
        have := congrArg List.reverse hr
        simpa using this

lemma NT_of {l : Str} (h1 : HeadOK l) (h2 : LastOK l) : NT l := by
  obtain ⟨c, t, he, hc⟩ := h1
  exact ⟨by rw [he]; simp, trim_id_of ⟨c, t, he, hc⟩ h2⟩

lemma NT_append {a b : Str} (ha : NT a) (hb : NT b) : NT (a ++ b) :=
  NT_of (headOK_append (NT_headOK ha) b) (lastOK_append a (NT_lastOK hb))

lemma NT_join : ∀ (L : List Str), (∀ x ∈ L, NT x) → L ≠ [] → NT L.flatten := by
  intro L
  induction L with
  | nil => intro _ h; exact absurd rfl h
  | cons x xs ih =>
      intro hall _
      cases xs with
      | nil => simpa using hall x (by simp)
      | cons y ys =>
          have h1 : NT x := hall x (by simp)
          have h2 : NT (y :: ys).flatten :=
            ih (fun z hz => hall z (by simp [hz])) (by simp)
          simpa using NT_append h1 h2

lemma NTor0_join (L : List Str) (h : ∀ x ∈ L, NT x) : NTor0 L.flatten := by
  cases L with
  | nil => left; rfl
  | cons x xs => right; exact NT_join _ h (by simp)

lemma mem_dropWhile_of {c : Char} (hc : ws c = false) :
    ∀ l : Str, c ∈ l → c ∈ l.dropWhile ws := by
  intro l
  induction l with
  | nil => simp
  | cons a t ih =>
      intro hm
      by_cases ha : ws a = true
      · have : (a :: t).dropWhile ws = t.dropWhile ws := by
          simp [List.dropWhile, ha]
        rw [this]
        rcases List.mem_cons.mp hm with he | ht
        · subst he; rw [hc] at ha; exact absurd ha (by simp)
        · exact ih ht
      · have ha' : ws a = false := by simpa using ha
        have : (a :: t).dropWhile ws = a :: t := by
          simp [List.dropWhile, ha']
        rw [this]; exact hm

lemma trim_ne_nil {c : Char} {l : Str} (hc : ws c = false) (hm : c ∈ l) :
    trimL l ≠ [] := by
  have h1 : c ∈ l.dropWhile ws := mem_dropWhile_of hc l hm
  have h2 : c ∈ trimEnd (l.dropWhile ws) := by
    have : c ∈ (l.dropWhile ws).reverse := by simpa using h1
    have := mem_dropWhile_of hc _ this
    simpa [trimEnd] using this
  exact List.ne_nil_of_mem h2

lemma joinSp_snoc : ∀ (fs : List Str) (f : Str),
    joinSp (fs ++ [f]) = joinSp fs ++ f ++ [' '] := by
  intro fs f
  induction fs with
  | nil => simp [joinSp]
  | cons g gs ih => simp [joinSp, ih]

lemma jsp_eq : ∀ (fs : List Str), fs ≠ [] →
    joinSp fs = icalate [' '] fs ++ [' '] := by
  intro fs
  induction fs with
  | nil => intro h; exact absurd rfl h
  | cons f gs ih =>
      intro _
      cases gs with
      | nil => simp [joinSp, icalate]
      | cons g gs' =>
          have h1 : joinSp (f :: g :: gs') = f ++ [' '] ++ joinSp (g :: gs') := rfl
          have h2 : icalate [' '] (f :: g :: gs')
              = f ++ [' '] ++ icalate [' '] (g :: gs') := rfl
          rw [h1, ih (by simp), h2]
          simp [List.append_assoc]

lemma icalate_headOK : ∀ (fs : List Str), (∀ x ∈ fs, NT x) → fs ≠ [] →
    HeadOK (icalate [' '] fs) := by
  intro fs hall hne
  cases fs with
  | nil => exact absurd rfl hne
  | cons f gs =>
      cases gs with
      | nil => exact NT_headOK (hall f (by simp))
      | cons g gs' =>
          have : icalate [' '] (f :: g :: gs') = f ++ ([' '] ++ icalate [' '] (g :: gs')) := by
            simp [icalate]
          rw [this]
          exact headOK_append (NT_headOK (hall f (by simp))) _

lemma icalate_lastOK : ∀ (fs : List Str), (∀ x ∈ fs, NT x) → fs ≠ [] →
    LastOK (icalate [' '] fs) := by
  intro fs
  induction fs with
  | nil => intro _ h; exact absurd rfl h
  | cons f gs ih =>
      intro hall _
      cases gs with
      | nil => exact NT_lastOK (hall f (by simp))
      | cons g gs' =>
          have he : icalate [' '] (f :: g :: gs') = (f ++ [' ']) ++ icalate [' '] (g :: gs') := by
            simp [icalate]
          rw [he]
          exact lastOK_append _ (ih (fun z hz => hall z (by simp [hz])) (by simp))

lemma icalate_snoc : ∀ (fs : List Str) (x : Str), fs ≠ [] →
    icalate [' '] (fs ++ [x]) = icalate [' '] fs ++ [' '] ++ x := by
  intro fs
  induction fs with
  | nil => intro x h; exact absurd rfl h
  | cons f gs ih =>
      intro x _
      cases gs with
      | nil => simp [icalate]
      | cons g gs' =>
          have : (f :: g :: gs') ++ [x] = f :: ((g :: gs') ++ [x]) := by simp
          rw [this]
          have h2 : icalate [' '] (f :: ((g :: gs') ++ [x]))
              = f ++ [' '] ++ icalate [' '] ((g :: gs') ++ [x]) := by
            cases gs' <;> simp [icalate]
          rw [h2, ih x (by simp)]
          simp [icalate]

/-- Trimming the accumulated-plus-interim string yields exactly the
space-joined list of finalized segments followed by the interim text. -/
lemma trim_joinSp (fs : List Str) (i : Str) (hfs : ∀ x ∈ fs, NT x)
    (hi : NTor0 i) :
    trimL (joinSp fs ++ i)
      = icalate [' '] (fs ++ if i = [] then [] else [i]) := by
  cases fs with
  | nil =>
      rcases hi with hi | hi
      · subst hi; simp [joinSp, icalate, trimL, trimEnd]
      · have hne : i ≠ [] := hi.1
        simp only [joinSp, List.nil_append, if_neg hne]
        rw [trim_id_of (NT_headOK hi) (NT_lastOK hi)]
        simp [icalate]
  | cons f gs =>
      have hne : (f :: gs : List Str) ≠ [] := by simp
      have hj : joinSp (f :: gs) = icalate [' '] (f :: gs) ++ [' '] :=
        jsp_eq _ hne
      have hH : HeadOK (icalate [' '] (f :: gs)) := icalate_headOK _ hfs hne
      have hL : LastOK (icalate [' '] (f :: gs)) := icalate_lastOK _ hfs hne
      rcases hi with hi | hi
      · subst hi
        rw [hj]
        have hif : (if ([] : Str) = [] then ([] : List Str) else [[]]) = [] := by simp
        rw [hif, List.append_nil, List.append_nil]
        rw [trimL, dropWhile_id_of_headOK (headOK_append hH _),
            trimEnd_snoc_ws _ _ (by simp [ws]), trimEnd_id_of_lastOK hL]
      · have hine : i ≠ [] := hi.1
        rw [hj, if_neg hine, icalate_snoc _ _ hne]
        have hHw : HeadOK ((icalate [' '] (f :: gs) ++ [' ']) ++ i) := by
          exact headOK_append (headOK_append hH _) _
        have hLw : LastOK ((icalate [' '] (f :: gs) ++ [' ']) ++ i) :=
          lastOK_append _ (NT_lastOK hi)
        rw [List.append_assoc] at hHw hLw ⊢
        exact trim_id_of hHw hLw

/-- C1 counterexample: capture ending before any quiet-period expiry —
by an explicit user-initiated stop (`c1run`) or by a capture error
(`c1runErr`) — DOES dispatch a submission with the accumulated text,
and the accumulated text is retained, not discarded: the submission
effect keys on capture having ended, not on the timer. -/
theorem c1_stop_submits_cex :
    (c1run.submissions = ["hello".data] ∧
     c1run.accumulated = "hello ".data) ∧
    (c1runErr.submissions = ["hello".data] ∧
     c1runErr.accumulated = "hello ".data) := by
  decide

/-- C1 (amended): whenever capture is listening with a non-empty
transcript and the submission flag unset, every way capture can end
dispatches exactly one submission carrying the current transcript: an
explicit user stop and a capture error both submit and leave the
accumulated text in place, and the quiet-period timeout callback
submits and clears the accumulated text — it alone clears it. -/
theorem c1_amended_stop_dispatches (t : Nat) (s : VState) (msg : Str)
    (h1 : s.isListening = true) (h2 : s.hasSubmitted = false)
    (h3 : s.transcript ≠ []) :
    (applyEvent t s .stop).submissions = s.submissions ++ [s.transcript] ∧
    (applyEvent t s .stop).accumulated = s.accumulated ∧
    (applyEvent t s (.error msg)).submissions
        = s.submissions ++ [s.transcript] ∧
    (applyEvent t s (.error msg)).accumulated = s.accumulated ∧
    (fireTimer s).submissions = s.submissions ++ [s.transcript] ∧
    (fireTimer s).accumulated = [] := by
  refine ⟨?_, ?_, ?_, ?_, ?_, ?_⟩ <;>
    simp [applyEvent, rawApply, fireTimer, h1, checkEffect, h2, h3]

/-- Witness for `c1_amended_stop_dispatches`: the three capture-ending
causes at one concrete mid-capture state. -/
theorem c1_amended_witness :
    c1wState.isListening = true ∧ c1wState.hasSubmitted = false ∧
    c1wState.transcript ≠ [] ∧
    ((applyEvent 200 c1wState .stop).submissions
        = c1wState.submissions ++ [c1wState.transcript] ∧
     (applyEvent 200 c1wState .stop).accumulated = c1wState.accumulated ∧
     (applyEvent 200 c1wState (.error "no-speech".data)).submissions
        = c1wState.submissions ++ [c1wState.transcript] ∧
     (applyEvent 200 c1wState (.error "no-speech".data)).accumulated
        = c1wState.accumulated ∧
     (fireTimer c1wState).submissions
        = c1wState.submissions ++ [c1wState.transcript] ∧
     (fireTimer c1wState).accumulated = []) :=
  ⟨by decide, by decide, by decide,
   c1_amended_stop_dispatches 200 c1wState "no-speech".data
     (by decide) (by decide) (by decide)⟩

/-- C5 counterexample: after an explicit restart following a
submission, the next session does NOT start empty — its submission
still contains the prior session's accumulated text. -/
theorem c5_restart_keeps_accumulated_cex :
    c5run.submissions = ["hello".data, "hello world".data] := by decide

lemma checkEffect_submitted {s : VState} (hs : s.hasSubmitted = true) :
    checkEffect s = s := by
  simp [checkEffect, hs]

lemma fireTimer_submitted {s : VState} (hs : s.hasSubmitted = true) :
    (fireTimer s).submissions = s.submissions ∧
    (fireTimer s).hasSubmitted = true := by
  by_cases hl : s.isListening = true <;>
    simp [fireTimer, hl, checkEffect, hs]

lemma maybeFire_submitted {s : VState} (t : Nat) (hs : s.hasSubmitted = true) :
    (maybeFire s t).submissions = s.submissions ∧
    (maybeFire s t).hasSubmitted = true := by
  cases ht : s.timer with
  | none => simp [maybeFire, ht, hs]
  | some d =>
      by_cases hd : d ≤ t
      · simp only [maybeFire, ht, if_pos hd]
        exact fireTimer_submitted hs
      · simp [maybeFire, ht, hd, hs]

lemma step_preserves_submitted {s : VState} (t : Nat) (e : VEvent)
    (he : e ≠ VEvent.start) (hs : s.hasSubmitted = true) :
    (stepTimed s (t, e)).submissions = s.submissions ∧
    (stepTimed s (t, e)).hasSubmitted = true := by
  obtain ⟨hm1, hm2⟩ := maybeFire_submitted (s := s) t hs
  have hraw : (rawApply t (maybeFire s t) e).submissions = s.submissions ∧
      (rawApply t (maybeFire s t) e).hasSubmitted = true := by
    cases e with
    | start => exact absurd rfl he
    | stop =>
        by_cases hl : (maybeFire s t).isListening = true <;>
          simp [rawApply, hl, hm1, hm2]
    | result segs =>
        by_cases hc : trimL (accOf (maybeFire s t) segs ++ intOf segs) ≠ [] <;>
          simp [rawApply, resultStep, hc, hm1, hm2]
    | error m => simp [rawApply, hm1, hm2]
  have := checkEffect_submitted hraw.2
  constructor
  · show (checkEffect _).submissions = _
    rw [this]; exact hraw.1
  · show (checkEffect _).hasSubmitted = true
    rw [this]; exact hraw.2

lemma fold_preserves_submitted :
    ∀ (evs : List (Nat × VEvent)) (s : VState),
      (∀ p ∈ evs, p.2 ≠ VEvent.start) → s.hasSubmitted = true →
      (List.foldl stepTimed s evs).submissions = s.submissions ∧
      (List.foldl stepTimed s evs).hasSubmitted = true := by
  intro evs
  induction evs with
  | nil => intro s _ hs; exact ⟨rfl, hs⟩
  | cons p rest ih =>
      intro s hno hs
      obtain ⟨h1, h2⟩ := step_preserves_submitted p.1 p.2 (hno p (by simp)) hs
      have hrest := ih (stepTimed s p) (fun q hq => hno q (by simp [hq])) h2
      refine ⟨?_, hrest.2⟩
      calc (List.foldl stepTimed (stepTimed s p) rest).submissions
        = (stepTimed s p).submissions := hrest.1
      _ = s.submissions := h1

lemma processTimed_preserves_submitted (evs : List (Nat × VEvent))
    (s : VState) (horizon : Nat)
    (hno : ∀ p ∈ evs, p.2 ≠ VEvent.start) (hs : s.hasSubmitted = true) :
    (processTimed s evs horizon).submissions = s.submissions := by
  obtain ⟨h1, h2⟩ := fold_preserves_submitted evs s hno hs
  unfold processTimed finalFire
  cases ht : (List.foldl stepTimed s evs).timer with
  | none => exact h1
  | some d =>
      by_cases hd : d ≤ horizon
      · simp only [if_pos hd]
        rw [(fireTimer_submitted h2).1]; exact h1
      · simp only [if_neg hd]; exact h1

/-- C5 (amended): explicitly restarting capture resets the exposed
transcript, the error and the submission-sent flag, but NOT the
accumulated finalized text, which is cleared only by the quiet-period
timeout callback; consequently a session restarted after a stop-ended
submission does not start empty.  The submission-sent flag still
transitions false-to-true at most once per session: once it is set, no
further submission occurs until the next explicit restart. -/
theorem c5_amended_restart_reset (t : Nat) (s : VState)
    (evs : List (Nat × VEvent)) (horizon : Nat) (s2 : VState)
    (hL : s.isListening = false)
    (hno : ∀ p ∈ evs, p.2 ≠ VEvent.start) (hsub : s2.hasSubmitted = true) :
    applyEvent t s .start
      = { s with hasSubmitted := false, transcript := [], error := none,
                 isListening := true } ∧
    (processTimed s2 evs horizon).submissions = s2.submissions := by
  constructor
  · simp [applyEvent, rawApply, hL, checkEffect]
  · exact processTimed_preserves_submitted evs s2 horizon hno hsub

/-- Witness for `c5_amended_restart_reset`: restarting from the state
reached after the first stop-ended session of the C5 counterexample. -/
theorem c5_amended_restart_witness :
    (⟨false, "hello".data, true, "hello ".data, some 5100, none,
        ["hello".data]⟩ : VState).isListening = false ∧
    (applyEvent 300
        (⟨false, "hello".data, true, "hello ".data, some 5100, none,
            ["hello".data]⟩ : VState) .start
      = { (⟨false, "hello".data, true, "hello ".data, some 5100, none,
            ["hello".data]⟩ : VState) with
            hasSubmitted := false, transcript := [], error := none,
            isListening := true } ∧
     (processTimed
        (⟨false, "hello".data, true, "hello ".data, some 5100, none,
            ["hello".data]⟩ : VState)
        [(400, VEvent.stop)] 400).submissions
        = (⟨false, "hello".data, true, "hello ".data, some 5100, none,
            ["hello".data]⟩ : VState).submissions) :=
  ⟨by decide,
   c5_amended_restart_reset 300 _ [(400, VEvent.stop)] 400 _ (by decide)
     (by intro p hp; simp at hp; rw [hp]; intro h; cases h) (by decide)⟩

lemma finOf_NTor0 {sg : List (Bool × Str)} (h : ∀ p ∈ sg, NT p.2) :
    NTor0 (finOf sg) := by
  apply NTor0_join
  intro x hx
  obtain ⟨a, ha, hfa⟩ := List.mem_filterMap.mp hx
  by_cases h1 : a.1 = true
  · rw [if_pos h1] at hfa
    cases hfa
    exact h a ha
  · rw [if_neg h1] at hfa
    cases hfa

lemma intOf_NTor0 {sg : List (Bool × Str)} (h : ∀ p ∈ sg, NT p.2) :
    NTor0 (intOf sg) := by
  apply NTor0_join
  intro x hx
  obtain ⟨a, ha, hfa⟩ := List.mem_filterMap.mp hx
  by_cases h1 : a.1 = true
  · rw [if_pos h1] at hfa
    cases hfa
  · rw [if_neg h1] at hfa
    cases hfa
    exact h a ha

lemma finOf_or_intOf {sg : List (Bool × Str)} (hne : sg ≠ [])
    (h : ∀ p ∈ sg, NT p.2) : finOf sg ≠ [] ∨ intOf sg ≠ [] := by
  cases sg with
  | nil => exact absurd rfl hne
  | cons p sg' =>
      have h2 : p.2 ≠ [] := (h p (by simp)).1
      by_cases h1 : p.1 = true
      · left
        simp only [finOf, List.filterMap_cons, if_pos h1, List.flatten_cons]
        simp [h2]
      · right
        simp only [intOf, List.filterMap_cons, if_neg h1]
        have h1' : (if p.1 then (none : Option Str) else some p.2) = some p.2 := by
          simp [Bool.eq_false_iff.mpr h1]
        simp only [intOf, List.filterMap_cons, h1', List.flatten_cons]
        simp [h2]

lemma accOf_joinSp {s : VState} {sg : List (Bool × Str)} {fins : List Str}
    (hacc : s.accumulated = joinSp fins) :
    accOf s sg = joinSp (fins ++ if finOf sg = [] then [] else [finOf sg]) := by
  by_cases hf : finOf sg = []
  · simp [accOf, hf, hacc]
  · simp only [accOf, if_neg hf, hacc, joinSp_snoc]

lemma finsAll_NT : ∀ (evs : List REvent), allWF evs →
    ∀ x ∈ finsAll evs, NT x := by
  intro evs
  induction evs with
  | nil => intro _ x hx; simp [finsAll] at hx
  | cons e rest ih =>
      intro hwf x hx
      obtain ⟨t, sg⟩ := e
      simp only [finsAll] at hx
      rcases List.mem_append.mp hx with h | h
      · by_cases hf : finOf sg = []
        · rw [if_pos hf] at h; simp at h
        · rw [if_neg hf] at h
          simp at h
          subst h
          rcases finOf_NTor0 (hwf (t, sg) (by simp)).2 with h0 | h0
          · exact absurd h0 hf
          · exact h0
      · exact ih (fun e he => hwf e (by simp [he])) x h

lemma lastInter_NTor0 : ∀ (evs : List REvent), allWF evs →
    NTor0 (lastInter evs) := by
  intro evs
  induction evs with
  | nil => intro _; left; rfl
  | cons e rest ih =>
      intro hwf
      obtain ⟨t, sg⟩ := e
      cases rest with
      | nil =>
          simp only [lastInter]
          exact intOf_NTor0 (hwf (t, sg) (by simp)).2
      | cons r rest' =>
          simp only [lastInter]
          exact ih (fun e he => hwf e (by simp [he]))

/-- Characterization of the state after a start and a run of
well-formed, quick-succession recognition events. -/
lemma voiceRunChar :
    ∀ (evs : List REvent) (s : VState) (prev : Option Nat) (fins : List Str),
      timesOK prev evs → allWF evs →
      s.isListening = true → s.hasSubmitted = false →
      s.accumulated = joinSp fins → (∀ x ∈ fins, NT x) →
      s.timer = prev.map (fun p => p + 5000) →
      (evs = [] → voiceFold s evs = s) ∧
      (evs ≠ [] → RunInv s (voiceFold s evs)
          (fins ++ finsAll evs) (lastInter evs) (lastTime evs)) := by
  intro evs
  induction evs with
  | nil =>
      intro s prev fins _ _ _ _ _ _ _
      exact ⟨fun _ => rfl, fun h => absurd rfl h⟩
  | cons ev rest ih =>
      obtain ⟨t, sg⟩ := ev
      intro s prev fins htime hwf hL hS hacc hfins htimer
      have hwfh : WFev sg := hwf (t, sg) (by simp)
      have hfinNT : NTor0 (finOf sg) := finOf_NTor0 hwfh.2
      have hintNT : NTor0 (intOf sg) := intOf_NTor0 hwfh.2
      have hor : finOf sg ≠ [] ∨ intOf sg ≠ [] := finOf_or_intOf hwfh.1 hwfh.2
      -- the pending timer (if any) does not fire before this event
      have hmf : maybeFire s t = s := by
        cases prev with
        | none => simp only [Option.map] at htimer; simp [maybeFire, htimer]
        | some p =>
            simp only [Option.map] at htimer
            have hlt : t < p + 5000 := by
              simp only [timesOK] at htime
              exact htime.2.1
            simp only [maybeFire, htimer]
            rw [if_neg (by omega)]
      -- the combined text is non-blank, so the transcript is published
      have hcurne : trimL (accOf s sg ++ intOf sg) ≠ [] := by
        rcases hor with h | h
        · have hNT : NT (finOf sg) := by
            rcases hfinNT with h0 | h0
            · exact absurd h0 h
            · exact h0
          obtain ⟨c, tl, he, hc⟩ := NT_headOK hNT
          apply trim_ne_nil hc
          have hmem : c ∈ finOf sg := by rw [he]; simp
          have : c ∈ accOf s sg := by
            simp only [accOf, if_neg h]
            simp [hmem]
          simp [this]
        · have hNT : NT (intOf sg) := by
            rcases hintNT with h0 | h0
            · exact absurd h0 h
            · exact h0
          obtain ⟨c, tl, he, hc⟩ := NT_headOK hNT
          apply trim_ne_nil hc
          have hmem : c ∈ intOf sg := by rw [he]; simp
          simp [hmem]
      have hstep : stepTimed s (toVE (t, sg))
          = { s with accumulated := accOf s sg,
                     transcript := trimL (accOf s sg ++ intOf sg),
                     timer := some (t + 5000) } := by
        show applyEvent t (maybeFire s t) (VEvent.result sg) = _
        rw [hmf]
        show checkEffect (resultStep t s sg) = _
        rw [resultStep, if_pos hcurne]
        rw [checkEffect, if_neg (by simp [hL])]
      have hfins1 : ∀ x ∈ fins ++ (if finOf sg = [] then [] else [finOf sg]),
          NT x := by
        intro x hx
        rcases List.mem_append.mp hx with h | h
        · exact hfins x h
        · by_cases hf : finOf sg = []
          · rw [if_pos hf] at h; simp at h
          · rw [if_neg hf] at h
            simp at h
            subst h
            rcases hfinNT with h0 | h0
            · exact absurd h0 hf
            · exact h0
      have htime' : timesOK (some t) rest := by
        cases prev with
        | none => simp only [timesOK] at htime; exact htime.2
        | some p => simp only [timesOK] at htime; exact htime.2.2
      obtain ⟨ihn, ihc⟩ :=
        ih ({ s with accumulated := accOf s sg,
                     transcript := trimL (accOf s sg ++ intOf sg),
                     timer := some (t + 5000) })
           (some t) (fins ++ if finOf sg = [] then [] else [finOf sg])
           htime' (fun e he => hwf e (by simp [he]))
           (by simpa using hL) (by simpa using hS)
           (by simpa using accOf_joinSp hacc) hfins1 (by simp)
      have hfoldcons : voiceFold s ((t, sg) :: rest)
          = voiceFold ({ s with accumulated := accOf s sg,
                                transcript := trimL (accOf s sg ++ intOf sg),
                                timer := some (t + 5000) }) rest := by
        simp only [voiceFold, List.map_cons, List.foldl_cons, hstep]
      constructor
      · intro h; simp at h
      · intro _
        cases rest with
        | nil =>
            rw [hfoldcons, ihn rfl]
            refine ⟨by simpa using hL, by simpa using hS, by simp, ?_, ?_, ?_, ?_⟩
            · simp only [finsAll, lastInter, lastTime, List.append_nil]
              simpa using accOf_joinSp hacc
            · simp only [finsAll, lastInter, lastTime, List.append_nil]
              rw [← accOf_joinSp hacc]
            · simpa using hcurne
            · simp [lastTime]
        | cons r rest' =>
            have hR := ihc (by simp)
            rw [hfoldcons]
            obtain ⟨hA, hB, hC, hD, hE, hF, hG⟩ := hR
            refine ⟨hA, hB, by simpa using hC, ?_, ?_, hF, ?_⟩
            · rw [hD]
              simp only [finsAll, List.append_assoc]
            · rw [hE]
              simp only [finsAll, lastInter, List.append_assoc]
            · rw [hG]
              simp only [lastTime]

lemma start_step : stepTimed vInit (0, VEvent.start) = vStarted := by decide

lemma runSession_eq (evs : List REvent) (horizon : Nat) :
    runSession evs horizon = finalFire (voiceFold vStarted evs) horizon := by
  simp only [runSession, processTimed, List.foldl_cons, start_step, voiceFold]

/-- C4: for all well-formed in-session recognition event sequences, the
exposed transcript equals the non-empty per-event finalized texts joined
by single spaces in arrival order, followed by the latest interim text;
interim text replaces the prior interim text rather than accumulating. -/
theorem c4_transcript_accumulation (evs : List REvent)
    (ht : timesOK none evs) (hwf : allWF evs) :
    (runSession evs (lastTime evs)).transcript = specT evs := by
  cases evs with
  | nil => decide
  | cons e es =>
      obtain ⟨_, ihc⟩ :=
        voiceRunChar (e :: es) vStarted none [] ht hwf rfl rfl rfl (by simp) rfl
      obtain ⟨hA, hB, hC, hD, hE, hF, hG⟩ := ihc (by simp)
      have hff : finalFire (voiceFold vStarted (e :: es)) (lastTime (e :: es))
          = voiceFold vStarted (e :: es) := by
        simp only [finalFire, hG]
        rw [if_neg (by omega)]
      rw [runSession_eq, hff, hE]
      simp only [List.nil_append, specT]
      exact trim_joinSp _ _ (finsAll_NT _ hwf) (lastInter_NTor0 _ hwf)

/-- Witness for `c4_transcript_accumulation`: an interim-only event
followed by a mixed final-plus-interim event. -/
theorem c4_transcript_witness :
    timesOK none [(100, [(false, "hel".data)]),
                  (200, [(true, "hello".data), (false, "wor".data)])] ∧
    allWF [(100, [(false, "hel".data)]),
           (200, [(true, "hello".data), (false, "wor".data)])] ∧
    (runSession [(100, [(false, "hel".data)]),
                 (200, [(true, "hello".data), (false, "wor".data)])]
        (lastTime [(100, [(false, "hel".data)]),
                   (200, [(true, "hello".data), (false, "wor".data)])])).transcript
      = specT [(100, [(false, "hel".data)]),
               (200, [(true, "hello".data), (false, "wor".data)])] :=
  ⟨by decide, by decide, c4_transcript_accumulation _ (by decide) (by decide)⟩

/-- C3: over a session of well-formed recognition events each arriving
within 5 seconds of its predecessor (re-arming the single quiet-period
timer and cancelling the prior one), once no further event arrives the
timer expires 5000 ms after the last event and exactly one submission is
dispatched, carrying exactly the transcript value at the moment of
expiry; before expiry no submission has occurred. -/
theorem c3_quiet_period_single_submission (evs : List REvent)
    (hne : evs ≠ []) (ht : timesOK none evs) (hwf : allWF evs)
    (horizon : Nat) (hh : lastTime evs + 5000 ≤ horizon) :
    (runSession evs horizon).submissions
        = [(runSession evs (lastTime evs)).transcript] ∧
    (runSession evs (lastTime evs)).submissions = [] := by
  cases evs with
  | nil => exact absurd rfl hne
  | cons e es =>
      obtain ⟨_, ihc⟩ :=
        voiceRunChar (e :: es) vStarted none [] ht hwf rfl rfl rfl (by simp) rfl
      obtain ⟨hA, hB, hC, hD, hE, hF, hG⟩ := ihc (by simp)
      have hff0 : finalFire (voiceFold vStarted (e :: es)) (lastTime (e :: es))
          = voiceFold vStarted (e :: es) := by
        simp only [finalFire, hG]
        rw [if_neg (by omega)]
      have hCnil : (voiceFold vStarted (e :: es)).submissions = [] := by
        rw [hC]; rfl
      constructor
      · rw [runSession_eq, runSession_eq, hff0]
        simp only [finalFire, hG]
        rw [if_pos (by omega)]
        rw [fireTimer, if_pos (by simpa using hA)]
        rw [checkEffect, if_pos ⟨by simpa using hF, by simp, by simpa using hB⟩]
        simp [hCnil]
      · rw [runSession_eq, hff0]
        exact hCnil

/-- Witness for `c3_quiet_period_single_submission`: one finalized
utterance, then 5 seconds of silence. -/
theorem c3_quiet_period_witness :
    ([(100, [(true, "lost ball".data)])] : List REvent) ≠ [] ∧
    timesOK none [(100, [(true, "lost ball".data)])] ∧
    allWF [(100, [(true, "lost ball".data)])] ∧
    lastTime [(100, [(true, "lost ball".data)])] + 5000 ≤ 5100 ∧
    ((runSession [(100, [(true, "lost ball".data)])] 5100).submissions
        = [(runSession [(100, [(true, "lost ball".data)])]
              (lastTime [(100, [(true, "lost ball".data)])])).transcript] ∧
     (runSession [(100, [(true, "lost ball".data)])]
        (lastTime [(100, [(true, "lost ball".data)])])).submissions = []) :=
  ⟨by decide, by decide, by decide, by decide,
   c3_quiet_period_single_submission _ (by decide) (by decide) (by decide)
     5100 (by decide)⟩

/-- C2 counterexample: in the `part_000` variant of the hook there is no
request gate, so two submission attempts with no completion between them
BOTH reach the rules API client — the claimed process-wide single
in-flight invariant fails there. -/
theorem c2_ungated_double_call_cex :
    (caAskStart (caAskStart apiInit "q one".data) "q two".data).apiCalls
      = ["q one".data, "q two".data] := by decide

/-- C2 (amended): in the gated hook (`src/App.tsx`, also `part_001`),
of two submission attempts with no completion between them exactly one
reaches the rules API client and the second is a silent no-op (the
state is unchanged); the `part_000` hook has no gate and lets both
attempts through. -/
theorem c2_amended_gate (s : ApiState) (q1 q2 : Str) (h : blocked s = false) :
    askStart (askStart s q1) q2 = askStart s q1 ∧
    (askStart s q1).apiCalls = s.apiCalls ++ [q1] ∧
    (caAskStart (caAskStart s q1) q2).apiCalls = s.apiCalls ++ [q1, q2] := by
  simp only [blocked, Bool.or_eq_false_iff] at h
  refine ⟨?_, ?_, ?_⟩
  · simp [askStart, blocked, h.1, h.2]
  · simp [askStart, blocked, h.1, h.2]
  · simp [caAskStart]

/-- Witness for `c2_amended_gate` at the initial state. -/
theorem c2_amended_gate_witness :
    blocked apiInit = false ∧
    (askStart (askStart apiInit "a".data) "b".data = askStart apiInit "a".data ∧
     (askStart apiInit "a".data).apiCalls = apiInit.apiCalls ++ ["a".data] ∧
     (caAskStart (caAskStart apiInit "a".data) "b".data).apiCalls
        = apiInit.apiCalls ++ ["a".data, "b".data]) :=
  ⟨by decide, c2_amended_gate apiInit "a".data "b".data (by decide)⟩

/-- C6: for every submission accepted by the request gate, the in-flight
marker and the loading flag are cleared on completion whatever the exit
path (success, API failure, network error or timeout), so a subsequent
submission is never blocked by a completed one. -/
theorem c6_inflight_cleared (s : ApiState) (q : Str) (r : FetchResult)
    (h : blocked s = false) :
    (askQuestion s q r).requestInProgress = false ∧
    (askQuestion s q r).loading = false ∧
    blocked (askQuestion s q r) = false := by
  simp only [blocked, Bool.or_eq_false_iff] at h
  cases r with
  | resolved a =>
      by_cases hs : a.success = true <;>
        simp [askQuestion, askStart, askFinish, blocked, h.1, h.2, hs]
  | rejected b =>
      cases b <;> simp [askQuestion, askStart, askFinish, blocked, h.1, h.2]

/-- Witness for `c6_inflight_cleared` on a timed-out request. -/
theorem c6_inflight_witness :
    blocked apiInit = false ∧
    ((askQuestion apiInit "a".data (.rejected true)).requestInProgress = false ∧
     (askQuestion apiInit "a".data (.rejected true)).loading = false ∧
     blocked (askQuestion apiInit "a".data (.rejected true)) = false) :=
  ⟨by decide, c6_inflight_cleared apiInit "a".data (.rejected true) (by decide)⟩

/-- C7 counterexample: in the `part_000` variant the request has no
client-side bound at all — a successful response arriving after 10.1
seconds is stored as a success, not reported as a timeout, contradicting
the claim that every question request is bounded by 10 seconds. -/
theorem c7_columbia_no_timeout_cex :
    (caAskQuestion apiInit "late".data
        (caFetchResult 10100 false ⟨true, "ans".data, none⟩)).response
      = some ⟨true, "ans".data, none⟩ ∧
    (caAskQuestion apiInit "late".data
        (caFetchResult 10100 false ⟨true, "ans".data, none⟩)).error = none := by
  decide

/-- C7 (amended): in the gated hook (`src/App.tsx`, also `part_001`) a
question request is aborted past the 10-second bound and reported as a
timeout condition, distinguishable from the network-error condition, the
stored answer is untouched, and exactly one request was issued (no
retry); the `part_000` hook issues requests with no client-side bound. -/
theorem c7_amended_timeout_bound (s : ApiState) (q : Str) (arrival : Nat)
    (netFail : Bool) (a : Answer) (h : blocked s = false)
    (hl : 10000 < arrival) :
    (askQuestion s q (fetchResult arrival netFail a)).error = some timeoutMsg ∧
    timeoutMsg ≠ networkMsg ∧
    (askQuestion s q (fetchResult arrival netFail a)).response = s.response ∧
    (askQuestion s q (fetchResult arrival netFail a)).apiCalls
        = s.apiCalls ++ [q] := by
  have hr : fetchResult arrival netFail a = .rejected true := by
    simp [fetchResult, hl]
  rw [hr]
  simp only [blocked, Bool.or_eq_false_iff] at h
  refine ⟨?_, by decide, ?_, ?_⟩ <;>
    simp [askQuestion, askStart, askFinish, blocked, h.1, h.2]

/-- Witness for `c7_amended_timeout_bound`: a response at 10.1 s. -/
theorem c7_amended_timeout_witness :
    blocked apiInit = false ∧ 10000 < 10100 ∧
    ((askQuestion apiInit "q".data (fetchResult 10100 false ⟨true, "x".data, none⟩)).error
        = some timeoutMsg ∧
     timeoutMsg ≠ networkMsg ∧
     (askQuestion apiInit "q".data (fetchResult 10100 false ⟨true, "x".data, none⟩)).response
        = apiInit.response ∧
     (askQuestion apiInit "q".data (fetchResult 10100 false ⟨true, "x".data, none⟩)).apiCalls
        = apiInit.apiCalls ++ ["q".data]) :=
  ⟨by decide, by decide,
   c7_amended_timeout_bound apiInit "q".data 10100 false ⟨true, "x".data, none⟩
     (by decide) (by decide)⟩

/-- C8 counterexample: `askQuestion` in `src/App.tsx` accepts the
submission (the gate is open, the request is dispatched) but the prior
displayed answer is NOT cleared at the start of the new request — only
the error is.  `setResponse(null)` is absent from lines 183-187. -/
theorem c8_answer_not_cleared_cex :
    blocked c8state = false ∧
    (askStart c8state "new question".data).response = some prevAnswer ∧
    (askStart c8state "new question".data).apiCalls = ["new question".data] := by
  decide

/-- C8 (amended): when a submission is accepted, the prior error is
cleared before the rules API client is invoked, but the prior displayed
answer is retained (it is replaced only by the next success); only the
`part_000` variant of the hook also clears the prior answer at the
start of a request. -/
theorem c8_amended_clearing (s : ApiState) (q : Str) (h : blocked s = false) :
    (askStart s q).error = none ∧
    (askStart s q).response = s.response ∧
    (caAskStart s q).error = none ∧
    (caAskStart s q).response = none := by
  simp only [blocked, Bool.or_eq_false_iff] at h
  refine ⟨?_, ?_, ?_, ?_⟩ <;> simp [askStart, caAskStart, blocked, h.1, h.2]

/-- Witness for `c8_amended_clearing` at the `c8state` input. -/
theorem c8_amended_clearing_witness :
    blocked c8state = false ∧
    ((askStart c8state "nq".data).error = none ∧
     (askStart c8state "nq".data).response = c8state.response ∧
     (caAskStart c8state "nq".data).error = none ∧
     (caAskStart c8state "nq".data).response = none) :=
  ⟨by decide, c8_amended_clearing c8state "nq".data (by decide)⟩

/-! ## Reasoning principles for `replaceAll` -/

lemma replaceAllGo_fuel (p r : Str) :
    ∀ (f1 : Nat) (s : Str) (f2 : Nat), s.length ≤ f1 → s.length ≤ f2 →
      replaceAllGo p r f1 s = replaceAllGo p r f2 s := by
  intro f1
  induction f1 with
  | zero =>
      intro s f2 h1 _
      have hs : s = [] := List.eq_nil_of_length_eq_zero (Nat.le_zero.mp h1)
      subst hs
      cases f2 <;> rfl
  | succ k ih =>
      intro s f2 h1 h2
      cases s with
      | nil => cases f2 <;> rfl
      | cons c cs =>
          cases f2 with
          | zero => simp at h2
          | succ m =>
              by_cases hc : (pfx p (c :: cs) && !p.isEmpty) = true
              · have hp : p ≠ [] := by
                  intro h
                  subst h
                  simp [List.isEmpty] at hc
                have hplen : 1 ≤ p.length :=
                  Nat.succ_le_of_lt (List.length_pos.mpr hp)
                have hd : (List.drop p.length (c :: cs)).length ≤ cs.length := by
                  rw [List.length_drop]
                  simp only [List.length_cons]
                  omega
                simp only [replaceAllGo, hc, if_true]
                exact congrArg (r ++ ·)
                  (ih _ _ (le_trans hd (Nat.le_of_succ_le_succ h1))
                     (le_trans hd (Nat.le_of_succ_le_succ h2)))
              · simp only [replaceAllGo, hc, if_false]
                exact congrArg (c :: ·)
                  (ih _ _ (Nat.le_of_succ_le_succ h1) (Nat.le_of_succ_le_succ h2))

lemma replaceAll_cons_of_match {p r : Str} {c : Char} {cs : Str}
    (hc : (pfx p (c :: cs) && !p.isEmpty) = true) :
    replaceAll p r (c :: cs)
      = r ++ replaceAll p r (List.drop p.length (c :: cs)) := by
  have hp : p ≠ [] := by
    intro h; subst h; simp [List.isEmpty] at hc
  have hplen : 1 ≤ p.length := Nat.succ_le_of_lt (List.length_pos.mpr hp)
  have hd : (List.drop p.length (c :: cs)).length ≤ cs.length := by
    rw [List.length_drop]; simp only [List.length_cons]; omega
  show replaceAllGo p r (c :: cs).length (c :: cs) = _
  simp only [List.length_cons, replaceAllGo, hc, if_true]
  exact congrArg (r ++ ·) (replaceAllGo_fuel p r _ _ _ hd (le_refl _))

lemma replaceAll_cons_of_neg {p r : Str} {c : Char} {cs : Str}
    (hc : (pfx p (c :: cs) && !p.isEmpty) = false) :
    replaceAll p r (c :: cs) = c :: replaceAll p r cs := by
  show replaceAllGo p r (c :: cs).length (c :: cs) = _
  simp only [List.length_cons, replaceAllGo, hc, if_false]
  rfl

lemma pfx_append_self : ∀ (p z : Str), pfx p (p ++ z) = true := by
  intro p
  induction p with
  | nil => intro z; rfl
  | cons a as ih => intro z; simp [pfx, ih]

lemma pfx_of_append_split :
    ∀ (x p z : Str), pfx p (x ++ z) = true →
      pfx p x = true ∨ pfx x p = true := by
  intro x
  induction x with
  | nil => intro p z _; right; rfl
  | cons a xs ih =>
      intro p z h
      cases p with
      | nil => left; rfl
      | cons b ps =>
          simp only [List.cons_append, pfx, Bool.and_eq_true,
            decide_eq_true_eq] at h
          obtain ⟨hab, htail⟩ := h
          rcases ih ps z htail with h1 | h1
          · left; simp [pfx, hab, h1]
          · right; simp [pfx, hab.symm, h1]

lemma drop_len_append : ∀ (p z : Str), List.drop p.length (p ++ z) = z := by
  intro p
  induction p with
  | nil => intro z; rfl
  | cons a as ih => intro z; simp [ih z]

lemma replaceAll_match {p r : Str} (hp : p ≠ []) (z : Str) :
    replaceAll p r (p ++ z) = r ++ replaceAll p r z := by
  cases p with
  | nil => exact absurd rfl hp
  | cons c pt =>
      have h1 : ((c :: pt) ++ z) = c :: (pt ++ z) := rfl
      rw [h1, replaceAll_cons_of_match
        (by simp [show pfx (c :: pt) (c :: (pt ++ z)) = true from pfx_append_self _ _,
                  List.isEmpty])]
      rw [show List.drop (c :: pt).length (c :: (pt ++ z))
            = List.drop pt.length (pt ++ z) from by simp,
          drop_len_append]

lemma cleanSeg_tail {p : Str} {c : Char} {x : Str}
    (h : CleanSeg p (c :: x)) : CleanSeg p x := by
  intro i hi
  have := h (i + 1) (by simp only [List.length_cons]; omega)
  simpa using this

lemma replaceAll_skip_clean {p r : Str} :
    ∀ (x : Str), CleanSeg p x → ∀ z,
      replaceAll p r (x ++ z) = x ++ replaceAll p r z := by
  intro x
  induction x with
  | nil => intro _ z; rfl
  | cons c x' ih =>
      intro hcl z
      have h0 := hcl 0 (by simp)
      simp only [List.drop_zero] at h0
      have hnp : pfx p ((c :: x') ++ z) = false := by
        cases hb : pfx p ((c :: x') ++ z) with
        | false => rfl
        | true =>
            rcases pfx_of_append_split (c :: x') p z hb with h1 | h1
            · rw [h0.1] at h1; cases h1
            · rw [h0.2] at h1; cases h1
      have : replaceAll p r (c :: (x' ++ z)) = c :: replaceAll p r (x' ++ z) :=
        replaceAll_cons_of_neg (by
          simp only [show (c :: (x' ++ z)) = (c :: x') ++ z from rfl, hnp,
            Bool.false_and])
      rw [List.cons_append, this, ih (cleanSeg_tail hcl) z]
      simp

lemma replaceAll_skip_nohead {p r : Str} {h0 : Char} {pt : Str}
    (hp : p = h0 :: pt) :
    ∀ (x : Str), (∀ c ∈ x, c ≠ h0) → ∀ z,
      replaceAll p r (x ++ z) = x ++ replaceAll p r z := by
  intro x
  induction x with
  | nil => intro _ z; rfl
  | cons c x' ih =>
      intro hx z
      have hc : c ≠ h0 := hx c (by simp)
      have hnp : pfx p (c :: (x' ++ z)) = false := by
        rw [hp]
        simp [pfx, Ne.symm hc]
      rw [List.cons_append,
          replaceAll_cons_of_neg (by simp [hnp]),
          ih (fun d hd => hx d (by simp [hd])) z]
      simp

lemma replaceAll_id_of_no_seg {p r : Str} :
    ∀ (s : Str), hasSeg p s = false → replaceAll p r s = s := by
  intro s
  induction s with
  | nil => intro _; rfl
  | cons c cs ih =>
      intro h
      simp only [hasSeg, Bool.or_eq_false_iff] at h
      rw [replaceAll_cons_of_neg (by simp [h.1]), ih h.2]

lemma hasSeg_single_of_not_mem {a : Char} :
    ∀ {s : Str}, (∀ c ∈ s, c ≠ a) → hasSeg [a] s = false := by
  intro s
  induction s with
  | nil => intro _; rfl
  | cons c cs ih =>
      intro h
      have hca : c ≠ a := h c (by simp)
      simp only [hasSeg, Bool.or_eq_false_iff]
      exact ⟨by simp [pfx, Ne.symm hca], ih (fun d hd => h d (by simp [hd]))⟩

lemma hdOpen : dOpen = patF ++ dOpen2 := by decide

lemma hdClose : dClose = segS ++ segE := by decide

lemma hpatSplit : pat = segE ++ (brStr ++ patF) := by decide

lemma hrepSplit : rep = segE ++ patF := by decide

lemma pat_head : pat = '<' :: "/div><br><div style=\"display: flex".data := by decide

lemma pat_ne : pat ≠ [] := by decide

lemma CS_brStr : CleanSeg pat brStr := by decide

lemma CS_patF : CleanSeg pat patF := by decide

lemma CS_dOpen2 : CleanSeg pat dOpen2 := by decide

lemma CS_segS : CleanSeg pat segS := by decide

lemma RAsegE : replaceAll pat rep segE = segE := by decide

lemma skipSeg {x : Str} (h : CleanSeg pat x) (z : Str) :
    replaceAll pat rep (x ++ z) = x ++ replaceAll pat rep z :=
  replaceAll_skip_clean x h z

lemma skipLt {x : Str} (h : ∀ c ∈ x, c ≠ '<') (z : Str) :
    replaceAll pat rep (x ++ z) = x ++ replaceAll pat rep z :=
  replaceAll_skip_nohead pat_head x h z

lemma RA_cons_ne {c : Char} (hc : c ≠ '<') (s : Str) :
    replaceAll pat rep (c :: s) = c :: replaceAll pat rep s :=
  replaceAll_cons_of_neg (by simp [pat_head, pfx, Ne.symm hc])

lemma skipE (z : Str) (h : pfx pat (segE ++ z) = false) :
    replaceAll pat rep (segE ++ z) = segE ++ replaceAll pat rep z := by
  have h0 : pfx pat ('<' :: '/' :: 'd' :: 'i' :: 'v' :: '>' :: z) = false := h
  show replaceAll pat rep ('<' :: '/' :: 'd' :: 'i' :: 'v' :: '>' :: z)
      = '<' :: '/' :: 'd' :: 'i' :: 'v' :: '>' :: replaceAll pat rep z
  rw [replaceAll_cons_of_neg (by simp [h0]),
      RA_cons_ne (by decide), RA_cons_ne (by decide), RA_cons_ne (by decide),
      RA_cons_ne (by decide), RA_cons_ne (by decide)]

lemma pfx_cancel : ∀ (x y z : Str), pfx (x ++ y) (x ++ z) = pfx y z := by
  intro x y z
  induction x with
  | nil => rfl
  | cons a xs ih => simp [pfx, ih]

lemma pfx_patF_brStr (X : Str) : pfx patF (brStr ++ X) = false := by
  show pfx patF ('<' :: 'b' :: 'r' :: '>' :: X) = false
  rw [show patF = '<' :: 'd' :: "iv style=\"display: flex".data from by decide]
  simp [pfx]

lemma splitNl_no_nl : ∀ (a : Str), (∀ c ∈ a, c ≠ '\n') → splitNl a = [a] := by
  intro a
  induction a with
  | nil => intro _; rfl
  | cons c cs ih =>
      intro h
      have hc : c ≠ '\n' := h c (by simp)
      have := ih (fun d hd => h d (by simp [hd]))
      simp [splitNl, this, hc]

/-- C10: both answer renderers insert the server-supplied answer text
verbatim as raw HTML: for any answer containing no newline and no
bullet character (the only transformed characters), not shaped as a
bullet line and not containing the Columbia `<br>`-removal pattern, the
inserted HTML is exactly the answer text — markup in the answer lands
in the document as markup, never escaped. -/
theorem c10_raw_html_passthrough (a : Str)
    (h1 : ∀ c ∈ a, c ≠ '\n') (h2 : ∀ c ∈ a, c ≠ '•')
    (h3 : isBullet a = false) (h4 : hasSeg pat a = false) :
    generalRender a = a ∧ columbiaRender a = a := by
  constructor
  · rw [generalRender,
        replaceAll_id_of_no_seg a (hasSeg_single_of_not_mem h1),
        replaceAll_id_of_no_seg a (hasSeg_single_of_not_mem h2)]
  · rw [columbiaRender, splitNl_no_nl a h1]
    have : renderAll [a] = a := by
      simp [renderAll, icalate, renderLine, h3]
    rw [this, replaceAll_id_of_no_seg a h4]

/-- Witness for `c10_raw_html_passthrough`: script markup passes
through both renderers untouched. -/
theorem c10_raw_html_witness :
    (∀ c ∈ "<script>alert(1)</script>".data, c ≠ '\n') ∧
    (∀ c ∈ "<script>alert(1)</script>".data, c ≠ '•') ∧
    isBullet "<script>alert(1)</script>".data = false ∧
    hasSeg pat "<script>alert(1)</script>".data = false ∧
    (generalRender "<script>alert(1)</script>".data
        = "<script>alert(1)</script>".data ∧
     columbiaRender "<script>alert(1)</script>".data
        = "<script>alert(1)</script>".data) :=
  ⟨by decide, by decide, by decide, by decide,
   c10_raw_html_passthrough _ (by decide) (by decide) (by decide) (by decide)⟩

/-- C9 counterexample: the GeneralApp answer renderer (`src/App.tsx`
lines 382-391, cited by the claim) does not render bullet lines as
indented items nor join adjacent bullet lines: on the claim's own
example it merely rewrites newlines to `<br>` and bullets to `&bull;`,
leaving an intervening `<br>` between the two adjacent bullet lines. -/

theorem c9_general_renderer_cex :
    generalRender exAnswer
      = "line one<br>&bull; item a<br>&bull; item b<br>line two".data ∧
    hasSeg "a<br>&bull;".data (generalRender exAnswer) = true := by
  decide

lemma renderAll_cons (l : Str) (ls : List Str) :
    renderAll (l :: ls) = renderLine l ++ restRender ls := by
  cases ls with
  | nil => simp [renderAll, restRender, icalate]
  | cons l2 ls' => simp [renderAll, restRender, icalate, List.append_assoc]

lemma specJoin_cons (l : Str) (ls : List Str) :
    specJoinLines (l :: ls) = renderLine l ++ restSpec (isBullet l) ls := by
  cases ls with
  | nil => simp [specJoinLines, restSpec]
  | cons l2 ls' => simp [specJoinLines, restSpec, List.append_assoc]

lemma renderLine_bullet {l : Str} (hb : isBullet l = true) :
    renderLine l = patF ++ bTail (replaceFirst bulletMark [] l) := by
  rw [renderLine, if_pos hb, bTail, hdOpen]
  simp [List.append_assoc]

lemma renderLine_plain {l : Str} (hb : isBullet l = false) :
    renderLine l = l := by
  rw [renderLine, if_neg (by simp [hb])]

lemma mem_replaceFirst {p : Str} :
    ∀ {s : Str} (c : Char), c ∈ replaceFirst p [] s → c ∈ s := by
  intro s
  induction s with
  | nil => intro c hc; simp [replaceFirst] at hc
  | cons a cs ih =>
      intro c hc
      by_cases hcond : (pfx p (a :: cs) && !p.isEmpty) = true
      · rw [replaceFirst, if_pos hcond] at hc
        simp only [List.nil_append] at hc
        exact List.drop_subset _ _ hc
      · rw [replaceFirst, if_neg hcond] at hc
        rcases List.mem_cons.mp hc with h | h
        · simp [h]
        · simp [ih c h]

lemma pfx_patF_renderAll {l : Str} {ls : List Str} (hb : isBullet l = false)
    (hl : ∀ c ∈ l, c ≠ '<') :
    pfx patF (renderAll (l :: ls)) = false := by
  rw [renderAll_cons, renderLine_plain hb]
  cases l with
  | nil =>
      cases ls with
      | nil => decide
      | cons l2 ls' =>
          simp only [List.nil_append, restRender]
          exact pfx_patF_brStr _
  | cons c l' =>
      have hc : c ≠ '<' := hl c (by simp)
      rw [List.cons_append,
          show patF = '<' :: 'd' :: "iv style=\"display: flex".data from by decide]
      simp [pfx, Ne.symm hc]

/-- Core refinement: the Columbia renderer's join-then-delete-`<br>`
pipeline computes exactly the declarative conditional join, for lines
free of `<`. -/
lemma renderer_core :
    ∀ (lines : List Str), (∀ l ∈ lines, ∀ c ∈ l, c ≠ '<') →
      (replaceAll pat rep (renderAll lines) = specJoinLines lines) ∧
      (∀ u : Str, (∀ c ∈ u, c ≠ '<') →
        replaceAll pat rep (bTail u ++ restRender lines)
          = bTail u ++ restSpec true lines) := by
  intro lines
  induction lines with
  | nil =>
      intro _
      constructor
      · simp [renderAll, icalate, specJoinLines, replaceAll, replaceAllGo]
      · intro u hu
        simp only [restRender, restSpec, List.append_nil]
        have hb : bTail u = dOpen2 ++ (u ++ (segS ++ segE)) := by
          rw [bTail, hdClose]; simp [List.append_assoc]
        rw [hb, skipSeg CS_dOpen2, skipLt hu, skipSeg CS_segS, RAsegE]
  | cons l ls ih =>
      intro hall
      have hl : ∀ c ∈ l, c ≠ '<' := hall l (by simp)
      have ihls := ih (fun x hx => hall x (by simp [hx]))
      have main : replaceAll pat rep (renderAll (l :: ls))
          = specJoinLines (l :: ls) := by
        rw [renderAll_cons, specJoin_cons]
        by_cases hb : isBullet l = true
        · rw [renderLine_bullet hb]
          have hu : ∀ c ∈ replaceFirst bulletMark [] l, c ≠ '<' :=
            fun c hc => hl c (mem_replaceFirst c hc)
          rw [List.append_assoc, skipSeg CS_patF, ihls.2 _ hu, hb]
          simp [List.append_assoc]
        · have hb' : isBullet l = false := by simpa using hb
          rw [renderLine_plain hb']
          cases ls with
          | nil =>
              simp only [restRender, restSpec, List.append_nil]
              have h2 := skipLt hl ([] : Str)
              rw [List.append_nil] at h2
              simpa [show replaceAll pat rep ([] : Str) = [] from rfl] using h2
          | cons l2 ls' =>
              simp only [restRender, restSpec]
              rw [skipLt hl, skipSeg CS_brStr, ihls.1, hb']
              simp
      refine ⟨main, ?_⟩
      intro u hu
      have hexp : bTail u ++ restRender (l :: ls)
          = dOpen2 ++ (u ++ (segS ++ (segE ++ (brStr ++ renderAll (l :: ls))))) := by
        simp only [restRender, bTail, hdClose]
        simp [List.append_assoc]
      rw [hexp, skipSeg CS_dOpen2, skipLt hu, skipSeg CS_segS]
      by_cases hb : isBullet l = true
      · have hformE : segE ++ (brStr ++ renderAll (l :: ls))
            = pat ++ (bTail (replaceFirst bulletMark [] l) ++ restRender ls) := by
          rw [renderAll_cons, renderLine_bullet hb, hpatSplit]
          simp [List.append_assoc]
        have hul : ∀ c ∈ replaceFirst bulletMark [] l, c ≠ '<' :=
          fun c hc => hl c (mem_replaceFirst c hc)
        rw [hformE, replaceAll_match pat_ne, ihls.2 _ hul, hrepSplit,
            show restSpec true (l :: ls) = specJoinLines (l :: ls) from by
              simp [restSpec, hb],
            specJoin_cons, renderLine_bullet hb, hb]
        simp [bTail, hdClose, List.append_assoc]
      · have hb' : isBullet l = false := by simpa using hb
        have hE : pfx pat (segE ++ (brStr ++ renderAll (l :: ls))) = false := by
          rw [hpatSplit, pfx_cancel, pfx_cancel]
          exact pfx_patF_renderAll hb' hl
        rw [skipE _ hE, skipSeg CS_brStr, main,
            show restSpec true (l :: ls) = brStr ++ specJoinLines (l :: ls) from by
              simp [restSpec, hb']]
        simp [bTail, hdClose, List.append_assoc]

lemma splitNl_ne_nil : ∀ (a : Str), splitNl a ≠ [] := by
  intro a
  cases a with
  | nil => simp [splitNl]
  | cons c cs =>
      simp only [splitNl]
      cases splitNl cs with
      | nil => simp
      | cons h t =>
          by_cases hc : c = '\n' <;> simp [hc]

lemma mem_of_mem_splitNl :
    ∀ (a l : Str), l ∈ splitNl a → ∀ c ∈ l, c ∈ a := by
  intro a
  induction a with
  | nil =>
      intro l hl c hc
      simp [splitNl] at hl
      subst hl
      simp at hc
  | cons d cs ih =>
      intro l hl c hc
      rcases hsplit : splitNl cs with _ | ⟨h, t⟩
      · exact absurd hsplit (splitNl_ne_nil cs)
      · rw [splitNl, hsplit] at hl
        have hl2 : l ∈ (if d = '\n' then [] :: h :: t else (d :: h) :: t) := hl
        by_cases hd : d = '\n'
        · rw [if_pos hd] at hl2
          rcases List.mem_cons.mp hl2 with h1 | h1
          · subst h1; simp at hc
          · have : c ∈ cs := ih l (by rw [hsplit]; exact h1) c hc
            simp [this]
        · rw [if_neg hd] at hl2
          rcases List.mem_cons.mp hl2 with h1 | h1
          · subst h1
            rcases List.mem_cons.mp hc with h2 | h2
            · simp [h2]
            · have : c ∈ cs := ih h (by rw [hsplit]; simp) c h2
              simp [this]
          · have : c ∈ cs := ih l (by rw [hsplit]; simp [h1]) c hc
            simp [this]

/-- C9 (amended): the Columbia answer renderer (`part_000`/`part_001`)
behaves exactly as the claim describes: the answer is split into lines,
bullet-marker lines become indented bullet items, adjacent bullet items
are joined without an intervening line break, and every other adjacent
pair of lines is separated by a line break — proved for answers
containing no `<` of their own.  The GeneralApp renderer does not share
this behavior (see the counterexample): it only rewrites newlines to
breaks and bullet characters to entities. -/
theorem c9_amended_columbia_renderer (a : Str) (h : ∀ c ∈ a, c ≠ '<') :
    columbiaRender a = specRender a := by
  have hall : ∀ l ∈ splitNl a, ∀ c ∈ l, c ≠ '<' :=
    fun l hl c hc => h c (mem_of_mem_splitNl a l hl c hc)
  exact (renderer_core (splitNl a) hall).1

/-- Witness for `c9_amended_columbia_renderer` at the specification's
round-trip example. -/
theorem c9_amended_renderer_witness :
    (∀ c ∈ exAnswer, c ≠ '<') ∧
    columbiaRender exAnswer = specRender exAnswer :=
  ⟨by decide, c9_amended_columbia_renderer exAnswer (by decide)⟩
